import Mathlib

/-!
# Verification of the agent-orchestrator session core

A shallow embedding of the session-store, runtime-delivery and
lifecycle logic of the agent-orchestrator repository, with theorems
settling the specification claims about it.

The metadata store (packages/core/src/metadata.ts) is modelled at the
level of character lists: the JavaScript string operations it uses
(split on newline, trim, indexOf of the delimiter, slice) are given
faithful counterparts, and the on-disk data directory is a value of a
Store structure holding the flat session files and the project-scoped
subdirectories.
-/

namespace AO

/-- ASCII whitespace for the model of the JS string trim. -/
def isWsChar (c : Char) : Bool :=
  c = ' ' || c = '\t' || c = '\n' || c = '\r'

/-- Model of the JS String.prototype.trim on a character list. -/
def trimChars (l : List Char) : List Char :=
  ((l.dropWhile isWsChar).reverse.dropWhile isWsChar).reverse

/-- Model of content.split of a newline: always returns at least one piece;
an empty input yields one empty piece, as in JS. -/
def splitOnNl : List Char → List (List Char)
  | [] => [[]]
  | c :: rest =>
    if c = '\n' then [] :: splitOnNl rest
    else
      match splitOnNl rest with
      | [] => [[c]]
      | l :: ls => (c :: l) :: ls

/-- Split a line at the first occurrence of the delimiter sign, as
line.indexOf followed by the two slices does in parseMetadataFile;
none when the line has no delimiter. -/
def splitFirstEq : List Char → Option (List Char × List Char)
  | [] => none
  | c :: rest =>
    if c = '=' then some ([], rest)
    else
      match splitFirstEq rest with
      | none => none
      | some (k, v) => some (c :: k, v)

/-- JS object property read (keys are unique in a JS object, so the first
binding is the binding). -/
def getKey : List (String × String) → String → Option String
  | [], _ => none
  | (k1, v1) :: rest, k => if k1 = k then some v1 else getKey rest k

/-- JS object property write result[key] = value: replace the binding in
place when the key is present, append otherwise. -/
def setKey : List (String × String) → String → String → List (String × String)
  | [], k, v => [(k, v)]
  | (k1, v1) :: rest, k, v =>
    if k1 = k then (k, v) :: rest else (k1, v1) :: setKey rest k v

/-- JS rest-spread removal of one key, as updateMetadata does for fields
set to the empty string. -/
def removeKey : List (String × String) → String → List (String × String)
  | [], _ => []
  | (k1, v1) :: rest, k =>
    if k1 = k then removeKey rest k else (k1, v1) :: removeKey rest k

/-- One line of parseMetadataFile folded into the accumulated record:
trim, skip blank lines and comment lines, split at the first delimiter,
skip lines with no delimiter or an empty key. -/
def parseLine (acc : List (String × String)) (line : List Char) : List (String × String) :=
  let t := trimChars line
  if t.isEmpty then acc
  else if t.head? = some '#' then acc
  else
    match splitFirstEq t with
    | none => acc
    | some (k, v) =>
      let key := trimChars k
      let val := trimChars v
      if key.isEmpty then acc else setKey acc (String.mk key) (String.mk val)

/-- parseMetadataFile from metadata.ts: parse newline-delimited key=value
pairs into a record. -/
def parseMetadataFile (content : String) : List (String × String) :=
  (splitOnNl content.data).foldl parseLine []

/-- Join the serialized lines with newlines (the array join of
serializeMetadata). -/
def joinNl : List (List Char) → List Char
  | [] => []
  | [l] => l
  | l :: l2 :: ls => l ++ '\n' :: joinNl (l2 :: ls)

/-- serializeMetadata from metadata.ts: drop entries with empty values,
render each entry as a key=value line, join with newlines and append a
final newline. -/
def serializeMetadata (data : List (String × String)) : String :=
  String.mk (joinNl ((data.filter (fun kv => kv.2 != "")).map
    (fun kv => kv.1.data ++ '=' :: kv.2.data)) ++ ['\n'])

/-- A value survives the write-then-parse cycle unchanged: no surrounding
whitespace to trim and no embedded newline. -/
def cleanVal (s : String) : Bool :=
  (match s.data.head? with | some c => !isWsChar c | none => true)
    && (match s.data.getLast? with | some c => !isWsChar c | none => true)
    && !s.data.contains '\n'

/-- A key usable as a field name of the key=value format: nonempty, no
surrounding whitespace, not a comment starter, no delimiter sign, no
newline. -/
def cleanKey (s : String) : Bool :=
  s != "" && cleanVal s && !s.data.contains '=' && s.data.head? != some '#'

/-- Model of the JS String.prototype.endsWith on character lists. -/
def strEndsWith (s suffix : String) : Bool :=
  suffix.data.isSuffixOf s.data

/-- Model of the JS String.prototype.startsWith on character lists. -/
def strStartsWith (s pre : String) : Bool :=
  pre.data.isPrefixOf s.data

/-- The VALID_SESSION_ID pattern of metadata.ts: one or more characters
from a-z, A-Z, 0-9, underscore, hyphen. -/
def validSessionId (s : String) : Bool :=
  s != "" && s.data.all (fun c => c.isAlphanum || c = '_' || c = '-')

/-- A directory listing: file name paired with file content. -/
abbrev FileMap := List (String × String)

/-- The on-disk data directory: the flat per-session files directly in
the directory, and the named subdirectories (each with its own files).
Reads check the flat file and every subdirectory whose name ends in
-sessions; writes of whole records use the flat file. -/
structure Store where
  flat : FileMap
  dirs : List (String × FileMap)
deriving Repr, DecidableEq

/-- The two on-disk layouts a session record can live in. -/
inductive MetaLoc where
  | flatLoc
  | subLoc (dir : String)
deriving Repr, DecidableEq

/-- resolveMetadataPath from metadata.ts, as a location: the flat path
when the flat file exists, otherwise the first subdirectory whose name
ends in -sessions and contains the session file; none when the record
is in neither layout. -/
def resolveLoc (s : Store) (id : String) : Option MetaLoc :=
  if (getKey s.flat id).isSome then some .flatLoc
  else
    match s.dirs.find? (fun d => strEndsWith d.1 "-sessions" && (getKey d.2 id).isSome) with
    | some d => some (.subLoc d.1)
    | none => none

/-- Read the file content of a session record at a resolved location. -/
def readLoc (s : Store) (id : String) : MetaLoc → Option String
  | .flatLoc => getKey s.flat id
  | .subLoc dir =>
    match s.dirs.find? (fun d => d.1 == dir) with
    | some d => getKey d.2 id
    | none => none

/-- Write file content into every subdirectory of the given name (on a
real file system the name is unique). -/
def setDirFile (dirs : List (String × FileMap)) (dir id content : String) :
    List (String × FileMap) :=
  dirs.map (fun d => if d.1 == dir then (d.1, setKey d.2 id content) else d)

/-- Write the file content of a session record at a location. -/
def writeLoc (s : Store) (id content : String) : MetaLoc → Store
  | .flatLoc => { s with flat := setKey s.flat id content }
  | .subLoc dir => { s with dirs := setDirFile s.dirs dir id content }

/-- The SessionMetadata record assembled by readMetadata in metadata.ts. -/
structure SessionMetadata where
  worktree : String
  branch : String
  status : String
  issue : Option String
  pr : Option String
  summary : Option String
  project : Option String
  createdAt : Option String
  runtimeHandle : Option String
deriving Repr, DecidableEq

/-- The record readMetadata builds from a parsed raw record: missing
worktree and branch default to the empty string, a missing status
defaults to the string unknown, the remaining fields stay optional. -/
def recordOfRaw (raw : List (String × String)) : SessionMetadata where
  worktree := (getKey raw "worktree").getD ""
  branch := (getKey raw "branch").getD ""
  status := (getKey raw "status").getD "unknown"
  issue := getKey raw "issue"
  pr := getKey raw "pr"
  summary := getKey raw "summary"
  project := getKey raw "project"
  createdAt := getKey raw "createdAt"
  runtimeHandle := getKey raw "runtimeHandle"

/-- readMetadata from metadata.ts. The outer none models the exception
thrown for an invalid session ID; the inner none models the null return
when the record exists in neither layout. -/
def readMetadata (s : Store) (id : String) : Option (Option SessionMetadata) :=
  if !validSessionId id then none
  else some <|
    match resolveLoc s id with
    | none => none
    | some loc =>
      match readLoc s id loc with
      | none => none
      | some content => some (recordOfRaw (parseMetadataFile content))

/-- readMetadataRaw from metadata.ts: the parsed record with arbitrary
keys, found in either layout. -/
def readMetadataRaw (s : Store) (id : String) :
    Option (Option (List (String × String))) :=
  if !validSessionId id then none
  else some <|
    match resolveLoc s id with
    | none => none
    | some loc =>
      match readLoc s id loc with
      | none => none
      | some content => some (parseMetadataFile content)

/-- One optional field of writeMetadata: included only when present and
nonempty (the JS truthiness test). -/
def optEntry (k : String) : Option String → List (String × String)
  | some v => if v != "" then [(k, v)] else []
  | none => []

/-- The string record writeMetadata assembles before serialization:
worktree, branch and status always, the optional fields only when
truthy. -/
def metadataPairs (m : SessionMetadata) : List (String × String) :=
  [("worktree", m.worktree), ("branch", m.branch), ("status", m.status)]
    ++ optEntry "issue" m.issue ++ optEntry "pr" m.pr
    ++ optEntry "summary" m.summary ++ optEntry "project" m.project
    ++ optEntry "createdAt" m.createdAt ++ optEntry "runtimeHandle" m.runtimeHandle

/-- writeMetadata from metadata.ts: serialize the assembled record and
overwrite the flat file. none models the invalid-ID exception. -/
def writeMetadata (s : Store) (id : String) (m : SessionMetadata) : Option Store :=
  if !validSessionId id then none
  else some { s with flat := setKey s.flat id (serializeMetadata (metadataPairs m)) }

/-- One entry of the updates object folded into the existing record:
undefined values are skipped, the empty string removes the key, any
other value overwrites it. -/
def applyUpdate (acc : List (String × String)) (kv : String × Option String) :
    List (String × String) :=
  match kv.2 with
  | none => acc
  | some v => if v = "" then removeKey acc kv.1 else setKey acc kv.1 v

/-- updateMetadata from metadata.ts: resolve the existing location
(falling back to the flat path for new records), parse the existing
file when present, merge the updates, write the result back to that
location. -/
def updateMetadata (s : Store) (id : String)
    (updates : List (String × Option String)) : Option Store :=
  if !validSessionId id then none
  else
    let loc := (resolveLoc s id).getD .flatLoc
    let existing :=
      match readLoc s id loc with
      | some content => parseMetadataFile content
      | none => []
    let merged := updates.foldl applyUpdate existing
    some (writeLoc s id (serializeMetadata merged) loc)

/-- reserveSessionId from metadata.ts: create the flat file exclusively
(O_EXCL) with empty content; true iff this call created it. none models
the invalid-ID exception. -/
def reserveSessionId (s : Store) (id : String) : Option (Bool × Store) :=
  if !validSessionId id then none
  else
    match getKey s.flat id with
    | some _ => some (false, s)
    | none => some (true, { s with flat := setKey s.flat id "" })

/-- The Set of seen session IDs of listMetadata: insertion order, first
occurrence kept. -/
def addUnique (seen : List String) (x : String) : List String :=
  if seen.contains x then seen else seen ++ [x]

/-- listMetadata from metadata.ts: flat files with valid IDs (skipping
the archive entry and dotfiles), plus the files of every subdirectory
whose name ends in -sessions (with the same skips), deduplicated. -/
def listMetadata (s : Store) : List String :=
  let flatIds := (s.flat.map Prod.fst).filter
    (fun n => n != "archive" && !strStartsWith n "." && validSessionId n)
  let dirIds := ((s.dirs.filter (fun d =>
      d.1 != "archive" && !strStartsWith d.1 "." && strEndsWith d.1 "-sessions")).map
    (fun d => (d.2.map Prod.fst).filter
      (fun e => e != "archive" && !strStartsWith e "." && validSessionId e))).flatten
  (flatIds ++ dirIds).foldl addUnique []

/-! ## The tmux Runtime plugin (packages/plugins/runtime-tmux/src/index.ts) -/

/-- The externally visible steps of the tmux sendMessage implementation:
an isBusy poll with its result, the clear of partial input (the C-u
keystroke), the injection of the content (paste-buffer for long or
multiline content, send-keys otherwise), and the terminating Enter
keystroke. -/
inductive SendAction where
  | pollBusy (busy : Bool)
  | clearInput
  | pasteBuffer (content : String)
  | sendKeys (content : String)
  | pressEnter
deriving Repr, DecidableEq

/-- The maxWait constant of sendMessage (seconds). -/
def maxWait : Nat := 60

/-- The pollInterval constant of sendMessage (seconds). -/
def pollInterval : Nat := 2

/-- The pre-send busy-wait loop of sendMessage: poll isBusy (busyAt k is
the result of the k-th poll), stop early on an idle poll, run at most
the given number of iterations. Returns the poll results in order. -/
def busyWaitFrom (busyAt : Nat → Bool) : Nat → Nat → List Bool
  | _, 0 => []
  | k, n + 1 =>
    let b := busyAt k
    if b then b :: busyWaitFrom busyAt (k + 1) n else [b]

/-- The polls the busy-wait of sendMessage performs: one per
pollInterval until maxWait is reached, so at most thirty. -/
def busyPolls (busyAt : Nat → Bool) : List Bool :=
  busyWaitFrom busyAt 0 (maxWait / pollInterval)

/-- The long-or-multiline test of sendMessage choosing the paste-buffer
injection path. -/
def isLongMessage (m : String) : Bool :=
  m.data.contains '\n' || m.length > 200

/-- The action trace of the tmux sendMessage and whether the call throws
the still-busy error after sending: wait for idle, clear partial input,
inject the content, press Enter; the error is raised iff the wait was
exhausted with the session still busy (the last poll still busy). -/
def sendMessageTrace (busyAt : Nat → Bool) (message : String) :
    List SendAction × Bool :=
  let polls := busyPolls busyAt
  let sentWhileBusy := polls.getLastD false
  let inject :=
    if isLongMessage message then SendAction.pasteBuffer message
    else SendAction.sendKeys message
  (polls.map SendAction.pollBusy
      ++ [SendAction.clearInput, inject, SendAction.pressEnter],
    sentWhileBusy)

/-! ## The CLI send command (packages/cli, registerSend) -/

/-- The outcome of the post-send verification loop of the CLI send
command. -/
inductive ConfirmOutcome where
  | processing (attempt : Nat)
  | queued (attempt : Nat)
  | unconfirmed
deriving Repr, DecidableEq

/-- The post-send verification loop of registerSend: up to three
attempts; each captures output and succeeds when the agent is visibly
active or the message was queued; before each retry (attempts one and
two only) the Enter keystroke is re-sent. active k and queuedMsg k are
the checks on the output captured at attempt k. Returns the outcome and
the number of Enter re-sends. -/
def verifyFrom (active queuedMsg : Nat → Bool) (attempt : Nat) :
    Nat → ConfirmOutcome × Nat
  | 0 => (ConfirmOutcome.unconfirmed, 0)
  | n + 1 =>
    if active attempt then (ConfirmOutcome.processing attempt, 0)
    else if queuedMsg attempt then (ConfirmOutcome.queued attempt, 0)
    else if n = 0 then (ConfirmOutcome.unconfirmed, 0)
    else
      let r := verifyFrom active queuedMsg (attempt + 1) n
      (r.1, r.2 + 1)

/-- The verification loop of registerSend as run after the injection:
attempts one to three. -/
def registerSendVerify (active queuedMsg : Nat → Bool) : ConfirmOutcome × Nat :=
  verifyFrom active queuedMsg 1 3

/-! ## The start command (packages/cli, registerStart) and lifecycle -/

/-- Modelled from the spec: the TERMINAL_STATUSES set of the core types
module (packages/core/src/types.ts is not under src/): the terminal
subset of the status enum: merged, killed, done, terminated, cleanup. -/
def TERMINAL_STATUSES : List String :=
  ["merged", "killed", "done", "terminated", "cleanup"]

/-- Modelled from the spec: the closed status enum of the core types
module (packages/core/src/types.ts is not under src/). -/
def SESSION_STATUSES : List String :=
  ["spawning", "working", "pr_open", "review_pending", "ci_failed",
   "changes_requested", "approved", "mergeable", "merged", "needs_input",
   "stuck", "errored", "cleanup", "killed", "done", "terminated"]

/-- The deterministic orchestrator session ID of the start command:
the project session prefix followed by -orchestrator. -/
def orchestratorSessionId (sessionPref : String) : String :=
  sessionPref ++ "-orchestrator"

/-- The slice of a session the start command consults. -/
structure CliSession where
  status : String
deriving Repr, DecidableEq

/-- The already-running check of registerStart: a session was found and
its status is not terminal. -/
def orchestratorExists (existing : Option CliSession) : Bool :=
  match existing with
  | none => false
  | some s => !TERMINAL_STATUSES.contains s.status

/-- The branch registerStart takes for the orchestrator session. -/
inductive StartDecision where
  | reuseExisting
  | conflict
  | spawnNew
deriving Repr, DecidableEq

/-- The orchestrator branch of registerStart: a live session plus an
explicit prompt is a conflict error; a live session without a prompt is
reused with no new runtime; otherwise a new orchestrator is spawned. -/
def startDecision (existing : Option CliSession) (promptRequested : Bool) :
    StartDecision :=
  if orchestratorExists existing && promptRequested then .conflict
  else if orchestratorExists existing then .reuseExisting
  else .spawnNew

/-- A session as tracked by the reconciliation loop. -/
structure TrackedSession where
  id : String
  status : String
deriving Repr, DecidableEq

/-- Modelled from the spec: the sessions one reconciliation tick of the
Lifecycle Manager polls (lifecycle-manager.ts is not under src/):
terminal sessions are filtered out first. -/
def tickPolled (sessions : List TrackedSession) : List TrackedSession :=
  sessions.filter (fun s => !TERMINAL_STATUSES.contains s.status)

/-- Modelled from the spec: the status updates of one reconciliation
tick (lifecycle-manager.ts is not under src/): each non-terminal
session gets the candidate status derived from its signals; terminal
sessions are left untouched. -/
def tickUpdate (candidate : String → String) (sessions : List TrackedSession) :
    List TrackedSession :=
  sessions.map (fun s =>
    if TERMINAL_STATUSES.contains s.status then s
    else { s with status := candidate s.id })

/-- Modelled from the spec: the reactions one tick dispatches
(lifecycle-manager.ts is not under src/): one per polled session whose
candidate status differs from the tracked status, keyed by the
transition. -/
def tickReactions (candidate : String → String) (sessions : List TrackedSession) :
    List (String × String × String) :=
  (tickPolled sessions).filterMap (fun s =>
    if candidate s.id = s.status then none
    else some (s.id, s.status, candidate s.id))

/-- Iterated reconciliation ticks, each with its own signal outcomes. -/
def tickN (candidates : Nat → String → String) :
    Nat → List TrackedSession → List TrackedSession
  | 0, sessions => sessions
  | n + 1, sessions => tickN candidates n (tickUpdate (candidates n) sessions)

/-! ## Instruments for the proofs -/

/-- The JS truthiness normalization of an optional string: empty or
absent becomes absent. -/
def truthy : Option String → Option String
  | some v => if v = "" then none else some v
  | none => none

/-- The last value bound to a key while building a record left to right
(JS object semantics for repeated keys). -/
def lastVal (m : List (String × String)) (k : String) : Option String :=
  m.foldl (fun r kv => if kv.1 = k then some kv.2 else r) none

/-- Pairwise distinct keys, as in an actual JS object. -/
def nodupKeys : List (String × String) → Bool
  | [] => true
  | (k, _) :: rest => (getKey rest k).isNone && nodupKeys rest

/-- Pairwise distinct keys of an updates object. -/
def nodupUKeys : List (String × Option String) → Bool
  | [] => true
  | (k, _) :: rest => !(rest.map Prod.fst).contains k && nodupUKeys rest

/-! ## Record lemmas -/

theorem getKey_setKey_self (m : List (String × String)) (k v : String) :
    getKey (setKey m k v) k = some v := by
  induction m with
  | nil => simp [setKey, getKey]
  | cons kv rest ih =>
    obtain ⟨k1, v1⟩ := kv
    by_cases h : k1 = k
    · simp [setKey, h, getKey]
    · simp [setKey, h, getKey, ih]

theorem getKey_setKey_ne (m : List (String × String)) (k1 v k : String)
    (h : k1 ≠ k) : getKey (setKey m k1 v) k = getKey m k := by
  induction m with
  | nil => simp [setKey, getKey, h]
  | cons kv rest ih =>
    obtain ⟨k2, v2⟩ := kv
    by_cases h2 : k2 = k1
    · simp [setKey, h2, getKey, h]
    · by_cases h3 : k2 = k
      · subst h3
        simp [setKey, h2, getKey, Ne.symm h]
      · simp [setKey, h2, getKey, h3, ih]

theorem getKey_removeKey_self (m : List (String × String)) (k : String) :
    getKey (removeKey m k) k = none := by
  induction m with
  | nil => simp [removeKey, getKey]
  | cons kv rest ih =>
    obtain ⟨k1, v1⟩ := kv
    by_cases h : k1 = k
    · simp [removeKey, h, ih]
    · simp [removeKey, h, getKey, ih]

theorem getKey_removeKey_ne (m : List (String × String)) (k1 k : String)
    (h : k1 ≠ k) : getKey (removeKey m k1) k = getKey m k := by
  induction m with
  | nil => simp [removeKey]
  | cons kv rest ih =>
    obtain ⟨k2, v2⟩ := kv
    by_cases h2 : k2 = k1
    · subst h2
      simp [removeKey, getKey, h, ih]
    · by_cases h3 : k2 = k
      · subst h3
        simp [removeKey, h2, getKey, Ne.symm h, ih]
      · simp [removeKey, h2, getKey, h3, ih]

theorem mem_setKey (m : List (String × String)) (k v : String)
    (kv : String × String) (h : kv ∈ setKey m k v) : kv = (k, v) ∨ kv ∈ m := by
  induction m with
  | nil => simpa [setKey] using h
  | cons kv1 rest ih =>
    obtain ⟨k1, v1⟩ := kv1
    by_cases h1 : k1 = k
    · simp only [setKey, if_pos h1, List.mem_cons] at h
      rcases h with h | h
      · exact Or.inl h
      · exact Or.inr (List.mem_cons_of_mem _ h)
    · simp only [setKey, if_neg h1, List.mem_cons] at h
      rcases h with h | h
      · exact Or.inr (h ▸ List.mem_cons_self _ _)
      · rcases ih h with h2 | h2
        · exact Or.inl h2
        · exact Or.inr (List.mem_cons_of_mem _ h2)

theorem mem_removeKey (m : List (String × String)) (k : String)
    (kv : String × String) (h : kv ∈ removeKey m k) : kv ∈ m := by
  induction m with
  | nil => simpa [removeKey] using h
  | cons kv1 rest ih =>
    obtain ⟨k1, v1⟩ := kv1
    by_cases h1 : k1 = k
    · simp only [removeKey, if_pos h1] at h
      exact List.mem_cons_of_mem _ (ih h)
    · simp only [removeKey, if_neg h1, List.mem_cons] at h
      rcases h with h | h
      · exact h ▸ List.mem_cons_self _ _
      · exact List.mem_cons_of_mem _ (ih h)

theorem nodupKeys_setKey (m : List (String × String)) (k v : String)
    (h : nodupKeys m = true) : nodupKeys (setKey m k v) = true := by
  induction m with
  | nil => simp [setKey, nodupKeys, getKey]
  | cons kv1 rest ih =>
    obtain ⟨k1, v1⟩ := kv1
    simp only [nodupKeys, Bool.and_eq_true, Option.isNone_iff_eq_none] at h
    by_cases h1 : k1 = k
    · subst h1
      simp [setKey, nodupKeys, h.1, h.2]
    · simp only [setKey, if_neg h1, nodupKeys, Bool.and_eq_true,
        Option.isNone_iff_eq_none]
      exact ⟨by rw [getKey_setKey_ne _ _ _ _ (fun e => h1 e.symm)]; exact h.1, ih h.2⟩

theorem nodupKeys_removeKey (m : List (String × String)) (k : String)
    (h : nodupKeys m = true) : nodupKeys (removeKey m k) = true := by
  induction m with
  | nil => simp [removeKey, nodupKeys]
  | cons kv1 rest ih =>
    obtain ⟨k1, v1⟩ := kv1
    simp only [nodupKeys, Bool.and_eq_true, Option.isNone_iff_eq_none] at h
    by_cases h1 : k1 = k
    · simp [removeKey, h1, ih h.2]
    · simp only [removeKey, if_neg h1, nodupKeys, Bool.and_eq_true,
        Option.isNone_iff_eq_none]
      exact ⟨by rw [getKey_removeKey_ne _ _ _ (fun e => h1 e.symm)]; exact h.1, ih h.2⟩

/-! ## Line-splitting and trimming lemmas -/

theorem splitOnNl_ne_nil (l : List Char) : splitOnNl l ≠ [] := by
  induction l with
  | nil => simp [splitOnNl]
  | cons c rest ih =>
    simp only [splitOnNl]
    by_cases h : c = '\n'
    · simp [h]
    · simp only [if_neg h]
      rcases e : splitOnNl rest with _ | ⟨l1, ls⟩ <;> simp

theorem splitOnNl_no_nl (l : List Char) (h : '\n' ∉ l) : splitOnNl l = [l] := by
  induction l with
  | nil => rfl
  | cons c rest ih =>
    have hc : ¬c = '\n' := fun e => h (e ▸ List.mem_cons_self _ _)
    have hr : '\n' ∉ rest := fun e => h (List.mem_cons_of_mem _ e)
    simp only [splitOnNl, if_neg hc, ih hr]

theorem splitOnNl_append_nl (l rest : List Char) (h : '\n' ∉ l) :
    splitOnNl (l ++ '\n' :: rest) = l :: splitOnNl rest := by
  induction l with
  | nil => simp [splitOnNl]
  | cons c t ih =>
    have hc : ¬c = '\n' := fun e => h (e ▸ List.mem_cons_self _ _)
    have ht : '\n' ∉ t := fun e => h (List.mem_cons_of_mem _ e)
    simp only [List.cons_append, splitOnNl, if_neg hc]
    rw [show t.append ('\n' :: rest) = t ++ '\n' :: rest from rfl, ih ht]

theorem splitFirstEq_append (k v : List Char) (h : '=' ∉ k) :
    splitFirstEq (k ++ '=' :: v) = some (k, v) := by
  induction k with
  | nil => simp [splitFirstEq]
  | cons c t ih =>
    have hc : ¬c = '=' := fun e => h (e ▸ List.mem_cons_self _ _)
    have ht : '=' ∉ t := fun e => h (List.mem_cons_of_mem _ e)
    simp only [List.cons_append, splitFirstEq, if_neg hc]
    rw [show t.append ('=' :: v) = t ++ '=' :: v from rfl, ih ht]

theorem dropWhile_eq_self_of_head (p : Char → Bool) (l : List Char)
    (h : ∀ c, l.head? = some c → p c = false) : l.dropWhile p = l := by
  cases l with
  | nil => rfl
  | cons a t => simp [List.dropWhile_cons, h a rfl]

theorem trimChars_eq_self (l : List Char)
    (h1 : ∀ c, l.head? = some c → isWsChar c = false)
    (h2 : ∀ c, l.getLast? = some c → isWsChar c = false) : trimChars l = l := by
  unfold trimChars
  rw [dropWhile_eq_self_of_head _ _ h1]
  rw [dropWhile_eq_self_of_head _ _
    (fun c hc => h2 c (by rwa [List.head?_reverse] at hc))]
  exact List.reverse_reverse l

theorem trimChars_nil : trimChars [] = [] := rfl

theorem string_data_eq_nil (s : String) (h : s.data = []) : s = "" := by
  obtain ⟨d⟩ := s
  have hd : d = [] := h
  subst hd
  rfl

/-- The trimmed line of a serialized entry of a clean key and value is
the line itself. -/
theorem trimChars_entry (k v : String) (hk : cleanKey k = true)
    (hv : cleanVal v = true) :
    trimChars (k.data ++ '=' :: v.data) = k.data ++ '=' :: v.data := by
  have hkdata : k.data ≠ [] := by
    intro e
    simp [cleanKey, string_data_eq_nil k e] at hk
  have hkclean : cleanVal k = true := by
    simp only [cleanKey, Bool.and_eq_true] at hk
    exact hk.1.1.2
  apply trimChars_eq_self
  · intro c hc
    rw [List.head?_append_of_ne_nil _ hkdata] at hc
    simp only [cleanVal, Bool.and_eq_true] at hkclean
    have := hkclean.1.1
    rw [hc] at this
    simpa using this
  · intro c hc
    rw [show (k.data ++ '=' :: v.data).getLast? = ('=' :: v.data).getLast? from
      List.getLast?_append_of_ne_nil k.data (by simp)] at hc
    rcases e : v.data with _ | ⟨b, t⟩
    · rw [e] at hc
      simp only [List.getLast?_singleton, Option.some_inj] at hc
      subst hc
      decide
    · rw [e, List.getLast?_cons_cons] at hc
      simp only [cleanVal, Bool.and_eq_true] at hv
      have := hv.1.2
      rw [e, ← List.getLast?_cons_cons (a := '=')] at this
      rw [List.getLast?_cons_cons] at this
      rw [hc] at this
      simpa using this

/-! ## parseLine lemmas -/

theorem parseLine_nil (acc : List (String × String)) : parseLine acc [] = acc := rfl

theorem parseLine_blank (acc : List (String × String)) (line : List Char)
    (h : trimChars line = []) : parseLine acc line = acc := by
  simp [parseLine, h]

theorem parseLine_comment (acc : List (String × String)) (line : List Char)
    (h : (trimChars line).head? = some '#') : parseLine acc line = acc := by
  by_cases he : (trimChars line).isEmpty
  · simp [parseLine, he]
  · simp [parseLine, he, h]

theorem parseLine_no_delim (acc : List (String × String)) (line : List Char)
    (h : splitFirstEq (trimChars line) = none) : parseLine acc line = acc := by
  by_cases he : (trimChars line).isEmpty
  · simp [parseLine, he]
  · by_cases hh : (trimChars line).head? = some '#'
    · simp [parseLine, he, hh]
    · simp [parseLine, he, hh, h]

/-- Parsing the serialized line of a clean key and value adds exactly
that binding; in particular the value may itself contain the delimiter
sign, since only the first one splits. -/
theorem parseLine_entry (acc : List (String × String)) (k v : String)
    (hk : cleanKey k = true) (hv : cleanVal v = true) :
    parseLine acc (k.data ++ '=' :: v.data) = setKey acc k v := by
  have hkdata : k.data ≠ [] := by
    intro e
    simp [cleanKey, string_data_eq_nil k e] at hk
  have htrim := trimChars_entry k v hk hv
  have hkclean : cleanVal k = true := by
    simp only [cleanKey, Bool.and_eq_true] at hk
    exact hk.1.1.2
  have hktrim : trimChars k.data = k.data := by
    apply trimChars_eq_self
    · intro c hc
      simp only [cleanVal, Bool.and_eq_true] at hkclean
      have := hkclean.1.1
      rw [hc] at this
      simpa using this
    · intro c hc
      simp only [cleanVal, Bool.and_eq_true] at hkclean
      have := hkclean.1.2
      rw [hc] at this
      simpa using this
  have hvtrim : trimChars v.data = v.data := by
    apply trimChars_eq_self
    · intro c hc
      simp only [cleanVal, Bool.and_eq_true] at hv
      have := hv.1.1
      rw [hc] at this
      simpa using this
    · intro c hc
      simp only [cleanVal, Bool.and_eq_true] at hv
      have := hv.1.2
      rw [hc] at this
      simpa using this
  have hne : ¬(k.data ++ '=' :: v.data).isEmpty := by
    rcases e : k.data with _ | ⟨a, t⟩
    · exact absurd e hkdata
    · simp
  have hhash : ¬(k.data ++ '=' :: v.data).head? = some '#' := by
    rw [List.head?_append_of_ne_nil _ hkdata]
    simp only [cleanKey, Bool.and_eq_true] at hk
    have := hk.2
    intro e
    rw [e] at this
    simpa using this
  have hsplit : splitFirstEq (k.data ++ '=' :: v.data) = some (k.data, v.data) := by
    apply splitFirstEq_append
    intro e
    simp only [cleanKey, Bool.and_eq_true] at hk
    have := hk.1.2
    simp [e] at this
  have hkne : ¬(trimChars k.data).isEmpty := by
    rw [hktrim]
    rcases e : k.data with _ | ⟨a, t⟩
    · exact absurd e hkdata
    · simp
  simp only [parseLine, htrim, hne, if_false, hhash, hsplit, hktrim, hvtrim, hkne]
  simp [hkdata]

/-! ## Round-trip of serializeMetadata and parseMetadataFile -/

theorem joinNl_cons (l : List Char) (ls : List (List Char)) (h : ls ≠ []) :
    joinNl (l :: ls) = l ++ '\n' :: joinNl ls := by
  cases ls with
  | nil => exact absurd rfl h
  | cons l2 t => rfl

/-- A clean serialized line has no newline. -/
theorem entry_no_nl (k v : String) (hk : cleanKey k = true)
    (hv : cleanVal v = true) : '\n' ∉ k.data ++ '=' :: v.data := by
  intro h
  rcases List.mem_append.mp h with h1 | h1
  · simp only [cleanKey, cleanVal, Bool.and_eq_true] at hk
    have := hk.1.1.2.2
    simp [h1] at this
  · rcases List.mem_cons.mp h1 with h2 | h2
    · exact absurd h2 (by decide)
    · simp only [cleanVal, Bool.and_eq_true] at hv
      have := hv.2
      simp [h2] at this

/-- Parsing the joined clean lines folds each binding into the
accumulator in order. -/
theorem foldl_parseLine_join (d : List (String × String))
    (hclean : ∀ kv ∈ d, cleanKey kv.1 = true ∧ cleanVal kv.2 = true)
    (acc : List (String × String)) :
    (splitOnNl (joinNl (d.map (fun kv => kv.1.data ++ '=' :: kv.2.data)) ++ ['\n'])).foldl
        parseLine acc
      = d.foldl (fun a kv => setKey a kv.1 kv.2) acc := by
  induction d generalizing acc with
  | nil =>
    show (splitOnNl ['\n']).foldl parseLine acc = acc
    have : splitOnNl ['\n'] = [[], []] := rfl
    rw [this]
    simp [List.foldl, parseLine_nil]
  | cons kv d2 ih =>
    obtain ⟨hk, hv⟩ := hclean kv (List.mem_cons_self _ _)
    have hclean2 : ∀ kv2 ∈ d2, cleanKey kv2.1 = true ∧ cleanVal kv2.2 = true :=
      fun kv2 h2 => hclean kv2 (List.mem_cons_of_mem _ h2)
    have hnl := entry_no_nl kv.1 kv.2 hk hv
    cases d2 with
    | nil =>
      simp only [List.map_cons, List.map_nil, joinNl]
      rw [show (kv.1.data ++ '=' :: kv.2.data) ++ ['\n']
            = (kv.1.data ++ '=' :: kv.2.data) ++ '\n' :: [] from rfl]
      rw [splitOnNl_append_nl _ _ hnl]
      rw [List.foldl_cons, parseLine_entry acc kv.1 kv.2 hk hv]
      rfl
    | cons kv2 d3 =>
      rw [List.map_cons, joinNl_cons _ _ (by simp)]
      rw [List.append_assoc, List.cons_append]
      rw [splitOnNl_append_nl _ _ hnl]
      rw [List.foldl_cons, parseLine_entry acc kv.1 kv.2 hk hv]
      exact ih hclean2 (setKey acc kv.1 kv.2)

/-- parseMetadataFile inverts serializeMetadata up to the dropped
empty-valued entries, for clean records. -/
theorem parse_serialize (data : List (String × String))
    (hclean : ∀ kv ∈ data, cleanKey kv.1 = true ∧ cleanVal kv.2 = true) :
    parseMetadataFile (serializeMetadata data)
      = (data.filter (fun kv => kv.2 != "")).foldl (fun a kv => setKey a kv.1 kv.2) [] := by
  unfold parseMetadataFile serializeMetadata
  exact foldl_parseLine_join _
    (fun kv h => hclean kv (List.mem_of_mem_filter h)) []

/-! ## lastVal machinery -/

theorem lastVal_aux (k : String) (l : List (String × String)) (r : Option String) :
    l.foldl (fun r kv => if kv.1 = k then some kv.2 else r) r = (lastVal l k).or r := by
  induction l generalizing r with
  | nil => simp [lastVal]
  | cons kv rest ih =>
    obtain ⟨k1, v1⟩ := kv
    show rest.foldl _ (if k1 = k then some v1 else r) = _
    rw [ih]
    have : lastVal ((k1, v1) :: rest) k
        = (lastVal rest k).or (if k1 = k then some v1 else none) := by
      show rest.foldl _ (if k1 = k then some v1 else none) = _
      rw [ih]
    rw [this, Option.or_assoc]
    congr 1
    by_cases h : k1 = k <;> simp [h]

theorem lastVal_cons (k1 v1 k : String) (rest : List (String × String)) :
    lastVal ((k1, v1) :: rest) k
      = (lastVal rest k).or (if k1 = k then some v1 else none) := by
  show rest.foldl _ (if k1 = k then some v1 else none) = _
  rw [lastVal_aux]

theorem lastVal_append (l1 l2 : List (String × String)) (k : String) :
    lastVal (l1 ++ l2) k = (lastVal l2 k).or (lastVal l1 k) := by
  unfold lastVal
  rw [List.foldl_append, lastVal_aux]
  rfl

theorem getKey_foldl_setKey (l acc : List (String × String)) (k : String) :
    getKey (l.foldl (fun a kv => setKey a kv.1 kv.2) acc) k
      = (lastVal l k).or (getKey acc k) := by
  induction l generalizing acc with
  | nil => simp [lastVal]
  | cons kv rest ih =>
    obtain ⟨k1, v1⟩ := kv
    rw [List.foldl_cons, ih, lastVal_cons, Option.or_assoc]
    congr 1
    by_cases h : k1 = k
    · subst h
      simp [getKey_setKey_self]
    · simp [h, getKey_setKey_ne _ _ _ _ h]

/-- The parsed content of a clean serialized record reads each key to
its last nonempty binding. -/
theorem getKey_parse_serialize (data : List (String × String))
    (hclean : ∀ kv ∈ data, cleanKey kv.1 = true ∧ cleanVal kv.2 = true)
    (k : String) :
    getKey (parseMetadataFile (serializeMetadata data)) k
      = lastVal (data.filter (fun kv => kv.2 != "")) k := by
  rw [parse_serialize data hclean, getKey_foldl_setKey]
  simp [getKey]

/-! ## Unique-key records -/

theorem getKey_filter_none (m : List (String × String)) (p : String × String → Bool)
    (k : String) (h : getKey m k = none) : getKey (m.filter p) k = none := by
  induction m with
  | nil => simp [getKey]
  | cons kv rest ih =>
    obtain ⟨k1, v1⟩ := kv
    by_cases h1 : k1 = k
    · simp [getKey, h1] at h
    · simp only [getKey, if_neg h1] at h
      rw [List.filter_cons]
      by_cases hp : p (k1, v1) <;> simp [hp, getKey, h1, ih h]

theorem getKey_filter (m : List (String × String)) (k : String)
    (h : nodupKeys m = true) :
    getKey (m.filter (fun kv => kv.2 != "")) k = truthy (getKey m k) := by
  induction m with
  | nil => simp [getKey, truthy]
  | cons kv rest ih =>
    obtain ⟨k1, v1⟩ := kv
    simp only [nodupKeys, Bool.and_eq_true, Option.isNone_iff_eq_none] at h
    rw [List.filter_cons]
    by_cases h1 : k1 = k
    · subst h1
      by_cases hv : v1 = ""
      · subst hv
        rw [if_neg (by simp)]
        rw [getKey_filter_none rest _ k1 h.1]
        simp [getKey, truthy]
      · simp [getKey, truthy, hv]
    · by_cases hv : v1 = "" <;>
        simp [hv, getKey, h1, ih h.2]

theorem lastVal_eq_getKey (m : List (String × String)) (k : String)
    (h : nodupKeys m = true) : lastVal m k = getKey m k := by
  induction m with
  | nil => simp [lastVal, getKey]
  | cons kv rest ih =>
    obtain ⟨k1, v1⟩ := kv
    simp only [nodupKeys, Bool.and_eq_true, Option.isNone_iff_eq_none] at h
    rw [lastVal_cons]
    by_cases h1 : k1 = k
    · subst h1
      rw [ih h.2, h.1]
      simp [getKey]
    · simp [h1, getKey, ih h.2]

theorem nodupKeys_filter (m : List (String × String)) (p : String × String → Bool)
    (h : nodupKeys m = true) : nodupKeys (m.filter p) = true := by
  induction m with
  | nil => simp [nodupKeys]
  | cons kv rest ih =>
    obtain ⟨k1, v1⟩ := kv
    simp only [nodupKeys, Bool.and_eq_true, Option.isNone_iff_eq_none] at h
    rw [List.filter_cons]
    by_cases hp : p (k1, v1)
    · simp only [hp, if_pos rfl, nodupKeys, Bool.and_eq_true,
        Option.isNone_iff_eq_none]
      exact ⟨getKey_filter_none rest p k1 h.1, ih h.2⟩
    · simp [hp, ih h.2]

/-- The workhorse: for a clean record with unique keys, a read of the
written file sees exactly the nonempty fields. -/
theorem getKey_roundtrip (m : List (String × String))
    (hclean : ∀ kv ∈ m, cleanKey kv.1 = true ∧ cleanVal kv.2 = true)
    (hnd : nodupKeys m = true) (k : String) :
    getKey (parseMetadataFile (serializeMetadata m)) k = truthy (getKey m k) := by
  rw [getKey_parse_serialize m hclean k,
    lastVal_eq_getKey _ _ (nodupKeys_filter m _ hnd), getKey_filter m k hnd]

/-- Same read, lastVal form: no unique-key hypothesis needed. -/
theorem lastVal_filter_truthy (m : List (String × String)) (k : String)
    (hnd : nodupKeys m = true) :
    lastVal (m.filter (fun kv => kv.2 != "")) k = truthy (getKey m k) := by
  rw [lastVal_eq_getKey _ _ (nodupKeys_filter m _ hnd), getKey_filter m k hnd]

/-! ## optEntry lemmas -/

theorem filter_optEntry (k : String) (v : Option String) :
    (optEntry k v).filter (fun kv => kv.2 != "") = optEntry k v := by
  cases v with
  | none => rfl
  | some s =>
    by_cases h : s = ""
    · simp [optEntry, h]
    · simp [optEntry, h, List.filter_cons]

theorem lastVal_optEntry_self (k : String) (v : Option String) :
    lastVal (optEntry k v) k = truthy v := by
  cases v with
  | none => rfl
  | some s =>
    by_cases h : s = ""
    · simp [optEntry, h, truthy, lastVal]
    · simp [optEntry, h, truthy, lastVal_cons, lastVal]

theorem lastVal_optEntry_ne (k1 k : String) (v : Option String) (h : k1 ≠ k) :
    lastVal (optEntry k1 v) k = none := by
  cases v with
  | none => rfl
  | some s =>
    by_cases hs : s = ""
    · simp [optEntry, hs, lastVal]
    · simp [optEntry, hs, lastVal_cons, lastVal, h]

/-! ## Store lemmas -/

/-- After a flat write the record resolves to the flat layout. -/
theorem resolveLoc_setFlat (s : Store) (id c : String) :
    resolveLoc { s with flat := setKey s.flat id c } id = some .flatLoc := by
  simp [resolveLoc, getKey_setKey_self]

/-- Reading back a freshly written flat file parses its content. -/
theorem readMetadata_setFlat (s : Store) (id c : String)
    (h : validSessionId id = true) :
    readMetadata { s with flat := setKey s.flat id c } id
      = some (some (recordOfRaw (parseMetadataFile c))) := by
  simp only [readMetadata, h, Bool.not_true, Bool.false_eq_true, if_false,
    resolveLoc_setFlat]
  simp [readLoc, getKey_setKey_self]

/-- A record resolves to no location exactly when it is absent from the
flat layout and from every -sessions subdirectory: reads check both
layouts. -/
theorem resolveLoc_none_iff (s : Store) (id : String) :
    resolveLoc s id = none
      ↔ getKey s.flat id = none
        ∧ ∀ d ∈ s.dirs, strEndsWith d.1 "-sessions" = true → getKey d.2 id = none := by
  unfold resolveLoc
  cases hf : getKey s.flat id with
  | some v => simp
  | none =>
    simp only [Option.isSome_none, Bool.false_eq_true, if_false]
    cases e : s.dirs.find?
        (fun d => strEndsWith d.1 "-sessions" && (getKey d.2 id).isSome) with
    | some d =>
      constructor
      · intro h
        exact absurd h (by simp)
      · rintro ⟨-, hall⟩
        exfalso
        have hd := List.find?_some e
        have hmem := List.mem_of_find?_eq_some e
        simp only [Bool.and_eq_true] at hd
        rw [hall d hmem hd.1] at hd
        simp at hd
    | none =>
      rw [List.find?_eq_none] at e
      constructor
      · intro _
        refine ⟨by trivial, ?_⟩
        intro d hmem hends
        have h2 := e d hmem
        simp only [Bool.and_eq_true, not_and] at h2
        exact Option.not_isSome_iff_eq_none.mp (h2 hends)
      · intro _
        rfl

/-- listMetadata membership: an ID is listed exactly when a flat file of
that name exists or a file of that name exists in a -sessions
subdirectory, excluding archive entries, dotfiles and invalid names. -/
theorem mem_foldl_addUnique (l acc : List String) (x : String) :
    x ∈ l.foldl addUnique acc ↔ x ∈ acc ∨ x ∈ l := by
  induction l generalizing acc with
  | nil => simp
  | cons y t ih =>
    rw [List.foldl_cons, ih]
    unfold addUnique
    by_cases h : acc.contains y
    · rw [if_pos h]
      have hy : y ∈ acc := by simpa using h
      constructor
      · rintro (h1 | h1)
        · exact Or.inl h1
        · exact Or.inr (List.mem_cons_of_mem _ h1)
      · rintro (h1 | h1)
        · exact Or.inl h1
        · rcases List.mem_cons.mp h1 with h2 | h2
          · exact Or.inl (h2 ▸ hy)
          · exact Or.inr h2
    · rw [if_neg h]
      simp only [List.mem_append, List.mem_singleton, List.mem_cons]
      tauto

theorem nodup_foldl_addUnique (l acc : List String) (h : acc.Nodup) :
    (l.foldl addUnique acc).Nodup := by
  induction l generalizing acc with
  | nil => exact h
  | cons y t ih =>
    rw [List.foldl_cons]
    apply ih
    unfold addUnique
    by_cases hc : acc.contains y
    · rwa [if_pos hc]
    · rw [if_neg hc]
      refine List.Nodup.append h (List.nodup_singleton y) ?_
      intro a ha hb
      rw [List.mem_singleton] at hb
      subst hb
      have hy : a ∉ acc := by simpa using hc
      exact hy ha

/-! ## updateMetadata lemmas -/

/-- After a targeted subdirectory write, the -sessions search still
finds a directory of the same name (now holding the new file). -/
theorem find?_pred_setDirFile (dirs : List (String × FileMap)) (id c : String)
    (dd : String × FileMap)
    (e : dirs.find?
        (fun d => strEndsWith d.1 "-sessions" && (getKey d.2 id).isSome) = some dd) :
    ∃ ee, (setDirFile dirs dd.1 id c).find?
        (fun d => strEndsWith d.1 "-sessions" && (getKey d.2 id).isSome) = some ee
      ∧ ee.1 = dd.1 := by
  induction dirs with
  | nil => simp [List.find?] at e
  | cons d0 rest ih =>
    cases hp : (strEndsWith d0.1 "-sessions" && (getKey d0.2 id).isSome) with
    | true =>
      have hstep : List.find?
          (fun d => strEndsWith d.1 "-sessions" && (getKey d.2 id).isSome) (d0 :: rest)
            = some d0 := List.find?_cons_of_pos _ hp
      rw [hstep] at e
      injection e with e2
      subst e2
      refine ⟨(d0.1, setKey d0.2 id c), ?_, rfl⟩
      unfold setDirFile
      rw [List.map_cons, if_pos (by simp)]
      simp only [Bool.and_eq_true] at hp
      exact List.find?_cons_of_pos _ (by simp [getKey_setKey_self, hp.1])
    | false =>
      have hstep : List.find?
          (fun d => strEndsWith d.1 "-sessions" && (getKey d.2 id).isSome) (d0 :: rest)
            = List.find?
              (fun d => strEndsWith d.1 "-sessions" && (getKey d.2 id).isSome) rest :=
        List.find?_cons_of_neg _ (by simp [hp])
      rw [hstep] at e
      obtain ⟨ee, he, hee⟩ := ih e
      have hpredd := List.find?_some e
      simp only [Bool.and_eq_true] at hpredd
      unfold setDirFile
      rw [List.map_cons]
      by_cases hname : (d0.1 == dd.1) = true
      · refine ⟨(d0.1, setKey d0.2 id c), ?_, by simpa using hname⟩
        rw [if_pos hname]
        have hnm : d0.1 = dd.1 := by simpa using hname
        exact List.find?_cons_of_pos _
          (by simp [getKey_setKey_self, hnm ▸ hpredd.1])
      · rw [if_neg hname]
        refine ⟨ee, ?_, hee⟩
        have hstep2 : List.find?
            (fun d => strEndsWith d.1 "-sessions" && (getKey d.2 id).isSome)
              (d0 :: setDirFile rest dd.1 id c)
            = List.find?
              (fun d => strEndsWith d.1 "-sessions" && (getKey d.2 id).isSome)
              (setDirFile rest dd.1 id c) :=
          List.find?_cons_of_neg _ (by simp [hp])
        show List.find?
            (fun d => strEndsWith d.1 "-sessions" && (getKey d.2 id).isSome)
            (d0 :: setDirFile rest dd.1 id c) = some ee
        rw [hstep2]
        exact he

/-- After a targeted subdirectory write, the directory of that name
found by name holds the written file. -/
theorem find?_setDirFile_getKey (dirs : List (String × FileMap)) (dir id c : String)
    (dd : String × FileMap) (e : dirs.find? (fun d => d.1 == dir) = some dd) :
    ∃ ee, (setDirFile dirs dir id c).find? (fun d => d.1 == dir) = some ee
      ∧ getKey ee.2 id = some c := by
  induction dirs with
  | nil => simp [List.find?] at e
  | cons d0 rest ih =>
    unfold setDirFile
    rw [List.map_cons]
    by_cases hname : (d0.1 == dir) = true
    · rw [if_pos hname]
      refine ⟨(d0.1, setKey d0.2 id c), ?_, getKey_setKey_self _ _ _⟩
      exact List.find?_cons_of_pos _ (by simpa using hname)
    · rw [if_neg hname]
      have hstep : List.find? (fun d => d.1 == dir) (d0 :: rest)
          = List.find? (fun d => d.1 == dir) rest :=
        List.find?_cons_of_neg _ (by simpa using hname)
      rw [hstep] at e
      obtain ⟨ee, he, hv⟩ := ih e
      refine ⟨ee, ?_, hv⟩
      have hstep2 : List.find? (fun d => d.1 == dir)
            (d0 :: setDirFile rest dir id c)
          = List.find? (fun d => d.1 == dir) (setDirFile rest dir id c) :=
        List.find?_cons_of_neg _ (by simpa using hname)
      show List.find? (fun d => d.1 == dir)
          (d0 :: setDirFile rest dir id c) = some ee
      rw [hstep2]
      exact he

/-- Writing back to a resolved location leaves the record resolvable at
that same location. -/
theorem resolveLoc_writeLoc (s : Store) (id c : String) (loc : MetaLoc)
    (h : resolveLoc s id = some loc) :
    resolveLoc (writeLoc s id c loc) id = some loc := by
  cases loc with
  | flatLoc =>
    simp [writeLoc, resolveLoc, getKey_setKey_self]
  | subLoc dir =>
    simp only [resolveLoc] at h
    cases hf : getKey s.flat id with
    | some v => rw [hf] at h; simp at h
    | none =>
      rw [hf] at h
      simp only [Option.isSome_none, Bool.false_eq_true, if_false] at h
      cases e : s.dirs.find?
          (fun d => strEndsWith d.1 "-sessions" && (getKey d.2 id).isSome) with
      | none => rw [e] at h; simp at h
      | some dd =>
        rw [e] at h
        have hdd : dd.1 = dir := by simpa using h
        subst hdd
        obtain ⟨ee, he, hee⟩ := find?_pred_setDirFile s.dirs id c dd e
        simp only [writeLoc, resolveLoc, hf, Option.isSome_none,
          Bool.false_eq_true, if_false]
        rw [he]
        simp [hee]

/-- Reading back a record written at its resolved location yields the
written content. -/
theorem readLoc_writeLoc (s : Store) (id c : String) (loc : MetaLoc)
    (hex : ∃ c0, readLoc s id loc = some c0) :
    readLoc (writeLoc s id c loc) id loc = some c := by
  cases loc with
  | flatLoc =>
    simp [writeLoc, readLoc, getKey_setKey_self]
  | subLoc dir =>
    obtain ⟨c0, h0⟩ := hex
    simp only [readLoc] at h0
    cases e : s.dirs.find? (fun d => d.1 == dir) with
    | none => rw [e] at h0; simp at h0
    | some dd =>
      obtain ⟨ee, he, hv⟩ := find?_setDirFile_getKey s.dirs dir id c dd e
      simp only [writeLoc, readLoc]
      rw [he]
      exact hv

/-- A field never named with a defined value in the updates is left
unchanged by the merge. -/
theorem merge_frame : ∀ (updates : List (String × Option String))
    (acc : List (String × String)) (k : String),
    (∀ ov, (k, ov) ∈ updates → ov = none) →
    getKey (updates.foldl applyUpdate acc) k = getKey acc k := by
  intro updates
  induction updates with
  | nil => intro acc k _; rfl
  | cons ku rest ih =>
    intro acc k h
    obtain ⟨k1, ov1⟩ := ku
    rw [List.foldl_cons]
    have hrest : ∀ ov, (k, ov) ∈ rest → ov = none :=
      fun ov hm => h ov (List.mem_cons_of_mem _ hm)
    rw [ih _ k hrest]
    cases ov1 with
    | none => rfl
    | some v =>
      by_cases hk : k1 = k
      · subst hk
        exact absurd (h (some v) (List.mem_cons_self _ _)) (by simp)
      · unfold applyUpdate
        by_cases hv : v = ""
        · simp only [hv, if_pos rfl]
          exact getKey_removeKey_ne _ _ _ hk
        · simp only [if_neg hv]
          exact getKey_setKey_ne _ _ _ _ hk

/-- A key updated to a nonempty value ends at that value after the
merge (unique update keys). -/
theorem merge_set : ∀ (updates : List (String × Option String))
    (acc : List (String × String)) (k v : String),
    nodupUKeys updates = true → (k, some v) ∈ updates → v ≠ "" →
    getKey (updates.foldl applyUpdate acc) k = some v := by
  intro updates
  induction updates with
  | nil => intro acc k v _ hmem _; simp at hmem
  | cons ku rest ih =>
    intro acc k v hnd hmem hv
    obtain ⟨k1, ov1⟩ := ku
    simp only [nodupUKeys, Bool.and_eq_true] at hnd
    rcases List.mem_cons.mp hmem with he | he
    · injection he with he1 he2
      subst he1
      rw [List.foldl_cons]
      have hknot : ∀ ov, (k, ov) ∈ rest → ov = none := by
        intro ov hm
        exfalso
        have hin : k ∈ rest.map Prod.fst := List.mem_map_of_mem _ hm
        have h2 := hnd.1
        simp [hin] at h2
      rw [merge_frame rest _ k hknot]
      rw [← he2]
      unfold applyUpdate
      simp only [if_neg hv]
      exact getKey_setKey_self _ _ _
    · rw [List.foldl_cons]
      exact ih _ k v hnd.2 he hv

/-- A key updated to the empty string is removed by the merge (unique
update keys). -/
theorem merge_remove : ∀ (updates : List (String × Option String))
    (acc : List (String × String)) (k : String),
    nodupUKeys updates = true → (k, some "") ∈ updates →
    getKey (updates.foldl applyUpdate acc) k = none := by
  intro updates
  induction updates with
  | nil => intro acc k _ hmem; simp at hmem
  | cons ku rest ih =>
    intro acc k hnd hmem
    obtain ⟨k1, ov1⟩ := ku
    simp only [nodupUKeys, Bool.and_eq_true] at hnd
    rcases List.mem_cons.mp hmem with he | he
    · injection he with he1 he2
      subst he1
      rw [List.foldl_cons]
      have hknot : ∀ ov, (k, ov) ∈ rest → ov = none := by
        intro ov hm
        exfalso
        have hin : k ∈ rest.map Prod.fst := List.mem_map_of_mem _ hm
        have h2 := hnd.1
        simp [hin] at h2
      rw [merge_frame rest _ k hknot]
      rw [← he2]
      unfold applyUpdate
      simp only [if_pos rfl]
      exact getKey_removeKey_self _ _
    · rw [List.foldl_cons]
      exact ih _ k hnd.2 he

/-- The merge preserves cleanliness of all entries. -/
theorem merge_clean (updates : List (String × Option String))
    (acc : List (String × String))
    (hacc : ∀ kv ∈ acc, cleanKey kv.1 = true ∧ cleanVal kv.2 = true)
    (hupd : ∀ ku ∈ updates, cleanKey ku.1 = true
      ∧ ∀ v, ku.2 = some v → cleanVal v = true) :
    ∀ kv ∈ updates.foldl applyUpdate acc,
      cleanKey kv.1 = true ∧ cleanVal kv.2 = true := by
  induction updates generalizing acc with
  | nil => exact hacc
  | cons ku rest ih =>
    rw [List.foldl_cons]
    apply ih
    · intro kv hm
      obtain ⟨k1, ov1⟩ := ku
      cases ov1 with
      | none => exact hacc kv hm
      | some v =>
        unfold applyUpdate at hm
        by_cases hv : v = ""
        · simp only [hv, if_pos rfl] at hm
          exact hacc kv (mem_removeKey _ _ _ hm)
        · simp only [if_neg hv] at hm
          rcases mem_setKey _ _ _ _ hm with he | he
          · subst he
            have h1 := hupd (k1, some v) (List.mem_cons_self _ _)
            exact ⟨h1.1, h1.2 v rfl⟩
          · exact hacc kv he
    · intro ku2 hm
      exact hupd ku2 (List.mem_cons_of_mem _ hm)

/-- The merge preserves key uniqueness. -/
theorem merge_nodup (updates : List (String × Option String))
    (acc : List (String × String)) (hacc : nodupKeys acc = true) :
    nodupKeys (updates.foldl applyUpdate acc) = true := by
  induction updates generalizing acc with
  | nil => exact hacc
  | cons ku rest ih =>
    rw [List.foldl_cons]
    apply ih
    obtain ⟨k1, ov1⟩ := ku
    cases ov1 with
    | none => exact hacc
    | some v =>
      unfold applyUpdate
      by_cases hv : v = ""
      · simp only [hv, if_pos rfl]
        exact nodupKeys_removeKey _ _ hacc
      · simp only [if_neg hv]
        exact nodupKeys_setKey _ _ _ hacc

/-! ## Cleanliness of whole records -/

/-- The optional-field values are clean when present. -/
def cleanOpt : Option String → Bool
  | some v => cleanVal v
  | none => true

/-- All field values of a metadata record are clean. -/
def cleanMetadata (m : SessionMetadata) : Bool :=
  cleanVal m.worktree && cleanVal m.branch && cleanVal m.status
    && cleanOpt m.issue && cleanOpt m.pr && cleanOpt m.summary
    && cleanOpt m.project && cleanOpt m.createdAt && cleanOpt m.runtimeHandle

theorem mem_optEntry (k : String) (v : Option String) (kv : String × String)
    (h : kv ∈ optEntry k v) : kv.1 = k ∧ v = some kv.2 := by
  cases v with
  | none => simp [optEntry] at h
  | some s =>
    by_cases hs : s = ""
    · simp [optEntry, hs] at h
    · have he : optEntry k (some s) = [(k, s)] := by simp [optEntry, hs]
      rw [he, List.mem_singleton] at h
      subst h
      exact ⟨rfl, rfl⟩

theorem metadataPairs_clean (m : SessionMetadata) (h : cleanMetadata m = true) :
    ∀ kv ∈ metadataPairs m, cleanKey kv.1 = true ∧ cleanVal kv.2 = true := by
  simp only [cleanMetadata, Bool.and_eq_true] at h
  intro kv hmem
  have hopt : ∀ (k2 : String) (v2 : Option String), cleanOpt v2 = true →
      cleanKey k2 = true → kv ∈ optEntry k2 v2 →
      cleanKey kv.1 = true ∧ cleanVal kv.2 = true := by
    intro k2 v2 hv2 hk2 hin
    obtain ⟨h1, h2⟩ := mem_optEntry k2 v2 kv hin
    refine ⟨h1 ▸ hk2, ?_⟩
    rw [h2] at hv2
    exact hv2
  rcases List.mem_append.mp hmem with h6 | h6
  rotate_left
  · exact hopt _ _ h.2 (by decide) h6
  rcases List.mem_append.mp h6 with h5 | h5
  rotate_left
  · exact hopt _ _ h.1.2 (by decide) h5
  rcases List.mem_append.mp h5 with h4 | h4
  rotate_left
  · exact hopt _ _ h.1.1.2 (by decide) h4
  rcases List.mem_append.mp h4 with h3 | h3
  rotate_left
  · exact hopt _ _ h.1.1.1.2 (by decide) h3
  rcases List.mem_append.mp h3 with h2 | h2
  rotate_left
  · exact hopt _ _ h.1.1.1.1.2 (by decide) h2
  rcases List.mem_append.mp h2 with h1 | h1
  rotate_left
  · exact hopt _ _ h.1.1.1.1.1.2 (by decide) h1
  rcases List.mem_cons.mp h1 with hb | hb
  · subst hb
    refine ⟨?_, h.1.1.1.1.1.1.1.1⟩
    show cleanKey "worktree" = true
    decide
  rcases List.mem_cons.mp hb with hb2 | hb2
  · subst hb2
    refine ⟨?_, h.1.1.1.1.1.1.1.2⟩
    show cleanKey "branch" = true
    decide
  rcases List.mem_cons.mp hb2 with hb3 | hb3
  · subst hb3
    refine ⟨?_, h.1.1.1.1.1.1.2⟩
    show cleanKey "status" = true
    decide
  · simp at hb3

/-- lastVal over the filtered mandatory triple of writeMetadata. -/
theorem lastVal_filter_base (w b st k : String) :
    lastVal (([("worktree", w), ("branch", b), ("status", st)]).filter
        (fun kv => kv.2 != "")) k
      = truthy (getKey [("worktree", w), ("branch", b), ("status", st)] k) :=
  lastVal_filter_truthy _ k (by simp [nodupKeys, getKey])

theorem getKey_mem (m : List (String × String)) (k v : String)
    (h : getKey m k = some v) : (k, v) ∈ m := by
  induction m with
  | nil => simp [getKey] at h
  | cons kv rest ih =>
    obtain ⟨k1, v1⟩ := kv
    by_cases h1 : k1 = k
    · subst h1
      have h2 : v1 = v := by simpa [getKey] using h
      subst h2
      exact List.mem_cons_self _ _
    · simp only [getKey, if_neg h1] at h
      exact List.mem_cons_of_mem _ (ih h)

/-! ## Busy-wait lemmas (tmux sendMessage) -/

theorem busyWaitFrom_length (busyAt : Nat → Bool) :
    ∀ n k, (busyWaitFrom busyAt k n).length ≤ n := by
  intro n
  induction n with
  | zero => intro k; simp [busyWaitFrom]
  | succ n ih =>
    intro k
    simp only [busyWaitFrom]
    cases busyAt k <;> simp [List.length_cons]
    exact ih (k + 1)

theorem busyWaitFrom_ne_nil (busyAt : Nat → Bool) (k n : Nat) (h : 0 < n) :
    busyWaitFrom busyAt k n ≠ [] := by
  cases n with
  | zero => exact absurd h (by simp)
  | succ n =>
    simp only [busyWaitFrom]
    cases busyAt k <;> simp

theorem getLastD_irrel (l : List Bool) (d1 d2 : Bool) (h : l ≠ []) :
    l.getLastD d1 = l.getLastD d2 := by
  cases l with
  | nil => exact absurd rfl h
  | cons x xs => rfl

/-- The busy flag after the wait loop is true exactly when every poll
up to the bound reported busy. -/
theorem busyWaitFrom_busy_iff (busyAt : Nat → Bool) :
    ∀ n k, (busyWaitFrom busyAt k (n + 1)).getLastD false = true
      ↔ ∀ j, j < n + 1 → busyAt (k + j) = true := by
  intro n
  induction n with
  | zero =>
    intro k
    rw [busyWaitFrom]
    cases hb : busyAt k with
    | true =>
      rw [if_pos rfl]
      constructor
      · intro _ j hj
        interval_cases j
        simpa using hb
      · intro _
        rfl
    | false =>
      rw [if_neg (by simp)]
      constructor
      · intro h2
        simp at h2
      · intro h2
        have h3 := h2 0 (by omega)
        simp [hb] at h3
  | succ n ih =>
    intro k
    rw [busyWaitFrom]
    cases hb : busyAt k with
    | false =>
      rw [if_neg (by simp)]
      constructor
      · intro h2
        simp at h2
      · intro h2
        have h3 := h2 0 (by omega)
        simp [hb] at h3
    | true =>
      rw [if_pos rfl]
      have hne := busyWaitFrom_ne_nil busyAt (k + 1) (n + 1) (by omega)
      rw [List.getLastD_cons, getLastD_irrel _ true false hne, ih (k + 1)]
      constructor
      · intro h2 j hj
        cases j with
        | zero => simpa using hb
        | succ j2 =>
          have h3 := h2 j2 (by omega)
          have he : k + (j2 + 1) = k + 1 + j2 := by omega
          rw [he]
          exact h3
      · intro h2 j hj
        have h3 := h2 (j + 1) (by omega)
        have he : k + 1 + j = k + (j + 1) := by omega
        rw [he]
        exact h3

/-! ## Verify-loop lemmas (CLI send) -/

theorem verifyFrom_resends_le (active queuedMsg : Nat → Bool) :
    ∀ n attempt, (verifyFrom active queuedMsg attempt (n + 1)).2 ≤ n := by
  intro n
  induction n with
  | zero =>
    intro attempt
    rw [verifyFrom]
    by_cases ha : active attempt = true
    · rw [if_pos ha]
    · rw [if_neg ha]
      by_cases hq : queuedMsg attempt = true
      · rw [if_pos hq]
      · rw [if_neg hq, if_pos rfl]
  | succ n ih =>
    intro attempt
    rw [verifyFrom]
    by_cases ha : active attempt = true
    · rw [if_pos ha]
      omega
    · rw [if_neg ha]
      by_cases hq : queuedMsg attempt = true
      · rw [if_pos hq]
        omega
      · rw [if_neg hq, if_neg (by omega)]
        have h2 := ih (attempt + 1)
        show (verifyFrom active queuedMsg (attempt + 1) (n + 1)).2 + 1 ≤ n + 1
        omega

/-! ## Reconciliation-tick lemmas -/

theorem tickUpdate_terminal (candidate : String → String)
    (sessions : List TrackedSession) (i : Nat) (s : TrackedSession)
    (hs : sessions[i]? = some s)
    (hc : s.status ∈ TERMINAL_STATUSES) :
    (tickUpdate candidate sessions)[i]? = some s := by
  unfold tickUpdate
  rw [List.getElem?_map, hs]
  simp [hc]

theorem tickN_terminal (candidates : Nat → String → String)
    (i : Nat) (s : TrackedSession)
    (hc : s.status ∈ TERMINAL_STATUSES) :
    ∀ n (sessions : List TrackedSession), sessions[i]? = some s →
      (tickN candidates n sessions)[i]? = some s := by
  intro n
  induction n with
  | zero => intro sessions hs; exact hs
  | succ n ih =>
    intro sessions hs
    show (tickN candidates n (tickUpdate (candidates n) sessions))[i]? = some s
    exact ih _ (tickUpdate_terminal _ _ i s hs hc)

/-! ## Claim theorems -/

/-- A store whose only record for the ID abc lives in a project-scoped
-sessions subdirectory. -/
def c1Store : Store :=
  ⟨[], [("p-sessions", [("abc", "status=working\n")])]⟩

/-- C1, counterexample to the claim as stated: a record for the ID abc
already exists in the store (readMetadata finds it in the
project-scoped layout), yet reserveSessionId returns true, because the
exclusive create tests only the flat path. -/
theorem reserveSessionId_ignores_subdir_record :
    readMetadata c1Store "abc"
        = some (some ⟨"", "", "working", none, none, none, none, none, none⟩)
      ∧ reserveSessionId c1Store "abc"
          = some (true, ⟨[("abc", "")],
              [("p-sessions", [("abc", "status=working\n")])]⟩) := by
  constructor
  · decide
  · decide

/-- C1 (amended): reserveSessionId reserves the flat record with one
atomic create-if-absent step: with a valid ID it returns true iff no
flat record existed (a record existing only in a project-scoped
subdirectory does not prevent the reservation), and of two callers
racing on the same ID exactly one receives true: the second call on the
resulting store returns false. -/
theorem reserveSessionId_flat_create_if_absent (s : Store) (id : String)
    (h : validSessionId id = true) :
    (∀ c, getKey s.flat id = some c → reserveSessionId s id = some (false, s))
      ∧ (getKey s.flat id = none →
          reserveSessionId s id = some (true, { s with flat := setKey s.flat id "" })
            ∧ ∀ s2, reserveSessionId s id = some (true, s2)
                → reserveSessionId s2 id = some (false, s2)) := by
  constructor
  · intro c hc
    simp [reserveSessionId, h, hc]
  · intro hn
    constructor
    · simp [reserveSessionId, h, hn]
    · intro s2 h2
      simp only [reserveSessionId, h, Bool.not_true, Bool.false_eq_true, if_false,
        hn] at h2
      simp only [Option.some_inj, Prod.mk.injEq, true_and] at h2
      subst h2
      simp [reserveSessionId, h, getKey_setKey_self]

/-- C1 witness: reserving a fresh ID in the empty store succeeds, and a
second reservation of the same ID fails. -/
theorem reserveSessionId_flat_create_if_absent_witness :
    reserveSessionId ⟨[], []⟩ "s1" = some (true, ⟨[("s1", "")], []⟩)
      ∧ reserveSessionId ⟨[("s1", "")], []⟩ "s1" = some (false, ⟨[("s1", "")], []⟩) := by
  have h := (reserveSessionId_flat_create_if_absent ⟨[], []⟩ "s1" (by decide)).2 rfl
  exact ⟨h.1, h.2 _ h.1⟩

/-- C6: the start command uses the fixed deterministic orchestrator
session ID (the project session prefix followed by -orchestrator); when
a live non-terminal orchestrator session exists, a start with an
explicit prompt fails with the conflict error and a start without one
reuses the session (never spawning a second runtime); a new orchestrator
is spawned only when none is live; and a session just spawned (status
spawning) counts as live for the second call. -/
theorem orchestrator_start_reuse_or_conflict :
    (∀ p : String, orchestratorSessionId p = p ++ "-orchestrator")
      ∧ (∀ s : CliSession, TERMINAL_STATUSES.contains s.status = false →
          startDecision (some s) true = .conflict
            ∧ startDecision (some s) false = .reuseExisting
            ∧ ∀ b, startDecision (some s) b ≠ .spawnNew)
      ∧ (∀ b, startDecision none b = .spawnNew)
      ∧ TERMINAL_STATUSES.contains "spawning" = false := by
  refine ⟨fun p => rfl, ?_, ?_, by decide⟩
  · intro s hs
    have hmem : s.status ∉ TERMINAL_STATUSES := by simpa using hs
    refine ⟨?_, ?_, ?_⟩
    · simp [startDecision, orchestratorExists, hmem]
    · simp [startDecision, orchestratorExists, hmem]
    · intro b
      cases b <;> simp [startDecision, orchestratorExists, hmem]
  · intro b
    cases b <;> simp [startDecision, orchestratorExists]

/-- C6 witness: with a live working orchestrator, a prompted start is a
conflict and an unprompted start reuses it; with none, a start spawns. -/
theorem orchestrator_start_reuse_or_conflict_witness :
    startDecision (some ⟨"working"⟩) true = .conflict
      ∧ startDecision (some ⟨"working"⟩) false = .reuseExisting
      ∧ startDecision none false = .spawnNew := by
  have h := orchestrator_start_reuse_or_conflict
  have h2 := h.2.1 ⟨"working"⟩ (by decide)
  exact ⟨h2.1, h2.2.1, h.2.2.1 false⟩

/-- C9: once a session status is terminal, reconciliation leaves it
alone: any number of ticks keeps the tracked session unchanged, the
session is not in the polled set of a tick, no reaction of a tick is
keyed to it (when its ID is unambiguous), and the liveness check of the
start command treats it as not running. -/
theorem terminal_status_frozen (sessions : List TrackedSession)
    (i : Nat) (s : TrackedSession) (hs : sessions[i]? = some s)
    (hterm : s.status ∈ TERMINAL_STATUSES) :
    (∀ candidates n, (tickN candidates n sessions)[i]? = some s)
      ∧ s ∉ tickPolled sessions
      ∧ (∀ candidate, ∀ r ∈ tickReactions candidate sessions,
          (∀ t ∈ sessions, t.id = s.id → t = s) → r.1 ≠ s.id)
      ∧ orchestratorExists (some ⟨s.status⟩) = false := by
  refine ⟨?_, ?_, ?_, ?_⟩
  · intro candidates n
    exact tickN_terminal candidates i s hterm n sessions hs
  · simp [tickPolled, List.mem_filter, hterm]
  · intro candidate r hr huniq he
    unfold tickReactions at hr
    rcases List.mem_filterMap.mp hr with ⟨t, ht, hf⟩
    have htmem : t ∈ sessions := List.mem_of_mem_filter ht
    have htnon : t.status ∉ TERMINAL_STATUSES := by
      have := (List.mem_filter.mp ht).2
      simpa using this
    have htid : t.id = r.1 := by
      by_cases hc : candidate t.id = t.status
      · simp [hc] at hf
      · simp only [if_neg hc, Option.some_inj] at hf
        rw [← hf]
    have := huniq t htmem (htid.trans he)
    rw [this] at htnon
    exact htnon hterm
  · simp [orchestratorExists, hterm]

/-- C9 witness: a merged session survives three ticks unchanged, is not
polled, gets no reaction, and is not counted as running. -/
theorem terminal_status_frozen_witness :
    (tickN (fun _ _ => "working") 3 [⟨"a", "merged"⟩])[0]? = some ⟨"a", "merged"⟩
      ∧ (⟨"a", "merged"⟩ : TrackedSession) ∉ tickPolled [⟨"a", "merged"⟩]
      ∧ orchestratorExists (some ⟨"merged"⟩) = false := by
  have h := terminal_status_frozen [⟨"a", "merged"⟩] 0 ⟨"a", "merged"⟩ rfl (by decide)
  exact ⟨h.1 (fun _ _ => "working") 3, h.2.1, h.2.2.2⟩

/-- C10: readMetadata substitutes defaults for missing fields instead
of reporting their absence: a missing status reads as the string
unknown (a value outside the closed status enum), missing worktree and
branch read as empty strings; in particular an ID just reserved by
reserveSessionId (an empty file) reads back as a record with status
unknown. -/
theorem readMetadata_defaults_unknown (s : Store) (id : String)
    (h : validSessionId id = true) :
    (∀ loc content, resolveLoc s id = some loc → readLoc s id loc = some content →
        readMetadata s id = some (some (recordOfRaw (parseMetadataFile content)))
          ∧ (getKey (parseMetadataFile content) "status" = none →
              (recordOfRaw (parseMetadataFile content)).status = "unknown")
          ∧ (getKey (parseMetadataFile content) "worktree" = none →
              (recordOfRaw (parseMetadataFile content)).worktree = "")
          ∧ (getKey (parseMetadataFile content) "branch" = none →
              (recordOfRaw (parseMetadataFile content)).branch = ""))
      ∧ "unknown" ∉ SESSION_STATUSES
      ∧ (getKey s.flat id = none →
          ∃ s2, reserveSessionId s id = some (true, s2)
            ∧ readMetadata s2 id
                = some (some ⟨"", "", "unknown", none, none, none, none, none, none⟩)) := by
  refine ⟨?_, by decide, ?_⟩
  · intro loc content hloc hcontent
    refine ⟨by simp [readMetadata, h, hloc, hcontent], ?_, ?_, ?_⟩
    · intro he
      simp [recordOfRaw, he]
    · intro he
      simp [recordOfRaw, he]
    · intro he
      simp [recordOfRaw, he]
  · intro hn
    refine ⟨{ s with flat := setKey s.flat id "" }, by simp [reserveSessionId, h, hn], ?_⟩
    rw [readMetadata_setFlat s id "" h]
    rfl

/-- C10 witness: reserving a fresh ID and reading it back yields the
all-default record with status unknown. -/
theorem readMetadata_defaults_unknown_witness :
    ∃ s2, reserveSessionId ⟨[("x", "worktree=w\n")], []⟩ "abc" = some (true, s2)
      ∧ readMetadata s2 "abc"
          = some (some ⟨"", "", "unknown", none, none, none, none, none, none⟩) :=
  (readMetadata_defaults_unknown ⟨[("x", "worktree=w\n")], []⟩ "abc"
    (by decide)).2.2 (by decide)

/-- C4: the pre-send busy-wait of the tmux sendMessage is bounded: at
most maxWait over pollInterval (thirty) isBusy polls at the fixed
interval, never an unbounded spin; the call throws the still-busy error
exactly when every poll up to the bound reported busy; and on every run
(the exhausted one included) the partial input is cleared, the content
is injected, and the terminating Enter keystroke is the final action,
so an exhausted wait still sends the message and then signals the
failure instead of silently succeeding. -/
theorem sendMessage_bounded_wait_and_ambiguous (busyAt : Nat → Bool)
    (message : String) :
    (busyPolls busyAt).length ≤ maxWait / pollInterval
      ∧ ((sendMessageTrace busyAt message).2 = true
          ↔ ∀ k, k < maxWait / pollInterval → busyAt k = true)
      ∧ (sendMessageTrace busyAt message).1
          = (busyPolls busyAt).map SendAction.pollBusy
            ++ [SendAction.clearInput,
                if isLongMessage message then SendAction.pasteBuffer message
                else SendAction.sendKeys message,
                SendAction.pressEnter]
      ∧ SendAction.clearInput ∈ (sendMessageTrace busyAt message).1
      ∧ (sendMessageTrace busyAt message).1.getLast? = some SendAction.pressEnter := by
  refine ⟨busyWaitFrom_length busyAt (maxWait / pollInterval) 0, ?_, rfl, ?_, ?_⟩
  · show (busyWaitFrom busyAt 0 30).getLastD false = true ↔ ∀ k, k < 30 → busyAt k = true
    have h := busyWaitFrom_busy_iff busyAt 29 0
    simpa using h
  · simp [sendMessageTrace]
  · have h3 : (sendMessageTrace busyAt message).1
        = (busyPolls busyAt).map SendAction.pollBusy
          ++ [SendAction.clearInput,
              if isLongMessage message then SendAction.pasteBuffer message
              else SendAction.sendKeys message, SendAction.pressEnter] := rfl
    rw [h3]
    have hne : ([SendAction.clearInput,
        if isLongMessage message then SendAction.pasteBuffer message
        else SendAction.sendKeys message, SendAction.pressEnter] : List SendAction) ≠ [] := by
      simp
    rw [List.getLast?_append_of_ne_nil _ hne]
    rfl

/-- C5, counterexample to the claim as stated: the full action trace of
the tmux Runtime sendMessage on an idle target is one poll, the clear,
the injection, and a single terminating Enter: no post-send
confirmation check and no re-assertion follow, even though the target
never visibly starts processing. -/
theorem sendMessage_no_postsend_retry :
    sendMessageTrace (fun _ => false) "hi"
      = ([SendAction.pollBusy false, SendAction.clearInput,
          SendAction.sendKeys "hi", SendAction.pressEnter], false) := by
  decide

/-- C5 (amended): the bounded post-send confirmation protocol lives in
the CLI send command, not in the tmux Runtime sendMessage: the CLI
verification loop makes at most three confirmation checks and at most
two Enter re-assertions; when the target never visibly starts
processing (and never queues the message) it re-sends Enter exactly
twice and reports the delivery unconfirmed; a target seen processing at
the first check needs no re-assertion; the tmux Runtime itself presses
Enter exactly once per send. -/
theorem cli_send_post_send_retries :
    (∀ active queuedMsg : Nat → Bool, (registerSendVerify active queuedMsg).2 ≤ 2)
      ∧ (∀ active queuedMsg : Nat → Bool,
          (∀ k, 1 ≤ k → k ≤ 3 → active k = false ∧ queuedMsg k = false) →
            registerSendVerify active queuedMsg = (ConfirmOutcome.unconfirmed, 2))
      ∧ (∀ active queuedMsg : Nat → Bool, active 1 = true →
          registerSendVerify active queuedMsg = (ConfirmOutcome.processing 1, 0))
      ∧ (∀ (busyAt : Nat → Bool) (message : String),
          (sendMessageTrace busyAt message).1.count SendAction.pressEnter = 1) := by
  refine ⟨?_, ?_, ?_, ?_⟩
  · intro active queuedMsg
    exact verifyFrom_resends_le active queuedMsg 2 1
  · intro active queuedMsg h
    have ha1 := (h 1 (by omega) (by omega)).1
    have hq1 := (h 1 (by omega) (by omega)).2
    have ha2 := (h 2 (by omega) (by omega)).1
    have hq2 := (h 2 (by omega) (by omega)).2
    have ha3 := (h 3 (by omega) (by omega)).1
    have hq3 := (h 3 (by omega) (by omega)).2
    simp [registerSendVerify, verifyFrom, ha1, hq1, ha2, hq2, ha3, hq3]
  · intro active queuedMsg h
    simp [registerSendVerify, verifyFrom, h]
  · intro busyAt message
    have htr : (sendMessageTrace busyAt message).1
        = (busyPolls busyAt).map SendAction.pollBusy
          ++ [SendAction.clearInput,
              if isLongMessage message then SendAction.pasteBuffer message
              else SendAction.sendKeys message, SendAction.pressEnter] := rfl
    rw [htr, List.count_append]
    have h0 : ((busyPolls busyAt).map SendAction.pollBusy).count
        SendAction.pressEnter = 0 := by
      rw [List.count_eq_zero]
      intro hmem
      rcases List.mem_map.mp hmem with ⟨b, _, hb⟩
      exact absurd hb (by simp)
    rw [h0]
    cases hl : isLongMessage message <;> simp [List.count_cons]

/-- C5 witness: with a target that never shows processing, the CLI
verification loop ends unconfirmed after exactly two Enter
re-assertions. -/
theorem cli_send_post_send_retries_witness :
    registerSendVerify (fun _ => false) (fun _ => false)
      = (ConfirmOutcome.unconfirmed, 2) :=
  cli_send_post_send_retries.2.1 (fun _ => false) (fun _ => false)
    (fun _ _ _ => ⟨rfl, rfl⟩)

/-- C8: the persisted record format: lines whose trimmed form starts
with the hash sign are comments and are skipped; blank lines and lines
with no delimiter are skipped without error; only the first delimiter
sign on a line splits key from value, so values may contain further
delimiter signs; and serialization omits fields with empty values, so
an empty field is absent after a write and re-parse. -/
theorem metadata_format_lines :
    (∀ (acc : List (String × String)) (line : List Char),
        (trimChars line).head? = some '#' → parseLine acc line = acc)
      ∧ (∀ (acc : List (String × String)) (line : List Char),
          trimChars line = [] → parseLine acc line = acc)
      ∧ (∀ (acc : List (String × String)) (line : List Char),
          splitFirstEq (trimChars line) = none → parseLine acc line = acc)
      ∧ (∀ (acc : List (String × String)) (k v : String),
          cleanKey k = true → cleanVal v = true →
            parseLine acc (k.data ++ '=' :: v.data) = setKey acc k v)
      ∧ getKey (parseMetadataFile "pr=https://h/p?x=1&y=2\n") "pr"
          = some "https://h/p?x=1&y=2"
      ∧ (∀ (m : List (String × String)) (k : String),
          (∀ kv ∈ m, cleanKey kv.1 = true ∧ cleanVal kv.2 = true) →
          nodupKeys m = true → getKey m k = some "" →
            getKey (parseMetadataFile (serializeMetadata m)) k = none) := by
  refine ⟨parseLine_comment, parseLine_blank, parseLine_no_delim, parseLine_entry,
    by decide, ?_⟩
  intro m k hclean hnd hk
  rw [getKey_roundtrip m hclean hnd k, hk]
  simp [truthy]

/-- C8 witness: a comment line, a blank line, a line with no delimiter
all parse to nothing, and a value containing a delimiter sign parses
whole. -/
theorem metadata_format_lines_witness :
    parseLine [] ("# note".data) = []
      ∧ parseLine [] ("   ".data) = []
      ∧ parseLine [] ("no delimiter".data) = []
      ∧ parseLine [] ("pr".data ++ '=' :: "a=b".data) = [("pr", "a=b")] := by
  have h := metadata_format_lines
  exact ⟨h.1 [] _ (by decide), h.2.1 [] _ (by decide), h.2.2.1 [] _ (by decide),
    h.2.2.2.1 [] "pr" "a=b" (by decide) (by decide)⟩

/-- A record showing the write-read round-trip is not exact: a
worktree with surrounding whitespace, an empty status and an
empty-string issue. -/
def c2Record : SessionMetadata :=
  ⟨" x", "b", "", some "", none, none, none, none, none⟩

/-- C2, counterexample to the claim as stated: writing a record whose
worktree is the nonempty string with a leading space reads back with
the space trimmed away (a nonempty field not equal to the written one),
and its empty status reads back as the string unknown rather than being
omitted or empty. -/
theorem writeMetadata_readMetadata_not_exact :
    ∃ s2, writeMetadata ⟨[], []⟩ "abc" c2Record = some s2
      ∧ readMetadata s2 "abc"
          = some (some ⟨"x", "b", "unknown", none, none, none, none, none, none⟩)
      ∧ c2Record.worktree ≠ ""
      ∧ ("x" : String) ≠ c2Record.worktree
      ∧ ("unknown" : String) ≠ "" := by
  refine ⟨_, rfl, by decide, by decide, by decide, by decide⟩

/-- C2 (amended): for a valid ID and a record whose field values are
clean (trimmed and newline-free), a write followed by a read returns a
record whose nonempty fields all equal the written ones; an empty
optional field (or one set to the empty string) comes back absent; the
mandatory worktree and branch come back verbatim (the empty string
reads back as the empty string), while an empty status comes back as
the string unknown. -/
theorem writeMetadata_readMetadata_roundtrip (s : Store) (id : String)
    (m : SessionMetadata) (hid : validSessionId id = true)
    (hm : cleanMetadata m = true) :
    ∃ s2, writeMetadata s id m = some s2
      ∧ readMetadata s2 id = some (some
          { worktree := m.worktree
            branch := m.branch
            status := if m.status = "" then "unknown" else m.status
            issue := truthy m.issue
            pr := truthy m.pr
            summary := truthy m.summary
            project := truthy m.project
            createdAt := truthy m.createdAt
            runtimeHandle := truthy m.runtimeHandle }) := by
  refine ⟨{ s with flat := setKey s.flat id (serializeMetadata (metadataPairs m)) },
    by simp [writeMetadata, hid], ?_⟩
  rw [readMetadata_setFlat s id _ hid]
  have hclean := metadataPairs_clean m hm
  simp only [Option.some_inj]
  unfold recordOfRaw
  simp only [getKey_parse_serialize _ hclean]
  simp only [metadataPairs, List.filter_append, lastVal_append, filter_optEntry,
    lastVal_filter_base]
  simp only [SessionMetadata.mk.injEq]
  refine ⟨?_, ?_, ?_, ?_, ?_, ?_, ?_, ?_, ?_⟩
  · simp [lastVal_optEntry_ne, Option.or_none, Option.none_or, getKey, truthy]
    by_cases hw : m.worktree = "" <;> simp [hw]
  · simp [lastVal_optEntry_ne, Option.or_none, Option.none_or, getKey, truthy]
    by_cases hb : m.branch = "" <;> simp [hb]
  · simp [lastVal_optEntry_ne, Option.or_none, Option.none_or, getKey, truthy]
    by_cases hs2 : m.status = "" <;> simp [hs2]
  · simp [lastVal_optEntry_ne, lastVal_optEntry_self,
      Option.or_none, Option.none_or, getKey, truthy]
  · simp [lastVal_optEntry_ne, lastVal_optEntry_self,
      Option.or_none, Option.none_or, getKey, truthy]
  · simp [lastVal_optEntry_ne, lastVal_optEntry_self,
      Option.or_none, Option.none_or, getKey, truthy]
  · simp [lastVal_optEntry_ne, lastVal_optEntry_self,
      Option.or_none, Option.none_or, getKey, truthy]
  · simp [lastVal_optEntry_ne, lastVal_optEntry_self,
      Option.or_none, Option.none_or, getKey, truthy]
  · simp [lastVal_optEntry_ne, lastVal_optEntry_self,
      Option.or_none, Option.none_or, getKey, truthy]

/-- C2 witness: a concrete clean record round-trips with its nonempty
fields intact, its empty-string pr absent and its worktree verbatim. -/
theorem writeMetadata_readMetadata_roundtrip_witness :
    ∃ s2, writeMetadata ⟨[], []⟩ "w1"
        ⟨"/w", "feat", "working", some "I-1", some "", none, none, none, none⟩ = some s2
      ∧ readMetadata s2 "w1" = some (some
          ⟨"/w", "feat", "working", some "I-1", none, none, none, none, none⟩) := by
  have h := writeMetadata_readMetadata_roundtrip ⟨[], []⟩ "w1"
    ⟨"/w", "feat", "working", some "I-1", some "", none, none, none, none⟩
    (by decide) (by decide)
  simpa [truthy] using h

/-- C7: listMetadata enumerates exactly the session IDs present in
either on-disk layout (flat files with valid names, and files inside
-sessions subdirectories, skipping archive entries and dotfiles),
deduplicated; a record is resolvable in neither layout only when both
the flat file and every -sessions subdirectory lack it; readMetadata
reports null exactly on such stores and otherwise parses the resolved
file of either layout; and writeMetadata always targets the flat
location, leaving the subdirectories untouched. -/
theorem listMetadata_both_layouts :
    (∀ (s : Store) (x : String),
        x ∈ listMetadata s
          ↔ x ≠ "archive" ∧ strStartsWith x "." = false ∧ validSessionId x = true
            ∧ ((∃ c, (x, c) ∈ s.flat)
                ∨ ∃ d fm, (d, fm) ∈ s.dirs ∧ d ≠ "archive"
                    ∧ strStartsWith d "." = false
                    ∧ strEndsWith d "-sessions" = true ∧ ∃ c, (x, c) ∈ fm))
      ∧ (∀ s : Store, (listMetadata s).Nodup)
      ∧ (∀ (s : Store) (id : String),
          resolveLoc s id = none
            ↔ getKey s.flat id = none
              ∧ ∀ d ∈ s.dirs, strEndsWith d.1 "-sessions" = true →
                  getKey d.2 id = none)
      ∧ (∀ (s : Store) (id : String), validSessionId id = true →
          resolveLoc s id = none → readMetadata s id = some none)
      ∧ (∀ (s : Store) (id : String) (loc : MetaLoc) (content : String),
          validSessionId id = true → resolveLoc s id = some loc →
          readLoc s id loc = some content →
            readMetadata s id = some (some (recordOfRaw (parseMetadataFile content))))
      ∧ (∀ (s : Store) (id : String) (m : SessionMetadata),
          validSessionId id = true →
            writeMetadata s id m = some
              { s with flat := setKey s.flat id (serializeMetadata (metadataPairs m)) }) := by
  refine ⟨?_, ?_, resolveLoc_none_iff, ?_, ?_, ?_⟩
  · intro s x
    unfold listMetadata
    rw [mem_foldl_addUnique]
    simp only [List.not_mem_nil, false_or]
    constructor
    · intro h
      rcases List.mem_append.mp h with h1 | h1
      · rw [List.mem_filter] at h1
        obtain ⟨hmem, hcond⟩ := h1
        simp only [Bool.and_eq_true, bne_iff_ne, Bool.not_eq_true'] at hcond
        obtain ⟨⟨hxa, hxd⟩, hxv⟩ := hcond
        rcases List.mem_map.mp hmem with ⟨⟨x1, c⟩, hmem2, hx1⟩
        cases hx1
        exact ⟨hxa, hxd, hxv, Or.inl ⟨c, hmem2⟩⟩
      · rw [List.mem_flatten] at h1
        obtain ⟨l, hl, hxl⟩ := h1
        rcases List.mem_map.mp hl with ⟨d, hdmem, hdl⟩
        subst hdl
        rw [List.mem_filter] at hdmem
        obtain ⟨hdmem2, hdcond⟩ := hdmem
        simp only [Bool.and_eq_true, bne_iff_ne, Bool.not_eq_true'] at hdcond
        rw [List.mem_filter] at hxl
        obtain ⟨hxm, hxcond⟩ := hxl
        simp only [Bool.and_eq_true, bne_iff_ne, Bool.not_eq_true'] at hxcond
        rcases List.mem_map.mp hxm with ⟨⟨x1, c⟩, hmem2, hx1⟩
        cases hx1
        exact ⟨hxcond.1.1, hxcond.1.2, hxcond.2,
          Or.inr ⟨d.1, d.2, hdmem2, hdcond.1.1, hdcond.1.2, hdcond.2, c, hmem2⟩⟩
    · rintro ⟨hxa, hxd, hxv, hflat | hsub⟩
      · obtain ⟨c, hc⟩ := hflat
        refine List.mem_append.mpr (Or.inl ?_)
        rw [List.mem_filter]
        refine ⟨List.mem_map.mpr ⟨(x, c), hc, rfl⟩, ?_⟩
        simp [hxa, hxd, hxv]
      · obtain ⟨d, fm, hdm, hda, hdd, hde, c, hc⟩ := hsub
        refine List.mem_append.mpr (Or.inr ?_)
        rw [List.mem_flatten]
        refine ⟨(fm.map Prod.fst).filter
            (fun e => e != "archive" && !strStartsWith e "." && validSessionId e), ?_, ?_⟩
        · refine List.mem_map.mpr ⟨(d, fm), ?_, rfl⟩
          rw [List.mem_filter]
          refine ⟨hdm, ?_⟩
          simp [hda, hdd, hde]
        · rw [List.mem_filter]
          refine ⟨List.mem_map.mpr ⟨(x, c), hc, rfl⟩, ?_⟩
          simp [hxa, hxd, hxv]
  · intro s
    exact nodup_foldl_addUnique _ [] List.nodup_nil
  · intro s id h hres
    simp [readMetadata, h, hres]
  · intro s id loc content h hres hread
    simp [readMetadata, h, hres, hread]
  · intro s id m h
    simp [writeMetadata, h]

/-- C7 witness: a store with one flat record and one subdirectory
record lists both IDs without duplicates, and a write lands in the flat
map. -/
theorem listMetadata_both_layouts_witness :
    readMetadata ⟨[], [("q-sessions", [("b", "")])]⟩ "zzz" = some none
      ∧ (listMetadata ⟨[("a", "")], [("p-sessions", [("b", "")])]⟩).Nodup
      ∧ writeMetadata ⟨[], []⟩ "w2"
          ⟨"w", "b", "working", none, none, none, none, none, none⟩
        = some ⟨[("w2", serializeMetadata (metadataPairs
            ⟨"w", "b", "working", none, none, none, none, none, none⟩))], []⟩ := by
  have h := listMetadata_both_layouts
  exact ⟨h.2.2.2.1 _ "zzz" (by decide) (by decide), h.2.1 _,
    h.2.2.2.2.2 ⟨[], []⟩ "w2" _ (by decide)⟩

/-- C3: updateMetadata is a read-modify-write merge over the record
resolved in either layout: after the update, every key of the partial
with a defined nonempty value reads back with that value, every key set
to the empty string is gone, and every field of the existing record not
defined in the partial is unchanged. Stated for well-formed existing
records (clean keys and values, no empty values, unique keys, as this
module writes them) and well-formed partials (clean keys and values,
unique keys, as a JS object provides). -/
theorem updateMetadata_merge (s : Store) (id : String)
    (updates : List (String × Option String))
    (hid : validSessionId id = true)
    (loc : MetaLoc) (hloc : resolveLoc s id = some loc)
    (content : String) (hcontent : readLoc s id loc = some content)
    (hex : (parseMetadataFile content).all
        (fun kv => cleanKey kv.1 && cleanVal kv.2 && kv.2 != "") = true)
    (hexnd : nodupKeys (parseMetadataFile content) = true)
    (hupd : updates.all (fun ku => cleanKey ku.1
        && (match ku.2 with | some v => cleanVal v | none => true)) = true)
    (hund : nodupUKeys updates = true) :
    ∃ s2, updateMetadata s id updates = some s2
      ∧ ∃ raw, readMetadataRaw s2 id = some (some raw)
        ∧ (∀ k v, (k, some v) ∈ updates → v ≠ "" → getKey raw k = some v)
        ∧ (∀ k, (k, some "") ∈ updates → getKey raw k = none)
        ∧ (∀ k, (∀ ov, (k, ov) ∈ updates → ov = none) →
            getKey raw k = getKey (parseMetadataFile content) k) := by
  have hexp : ∀ kv ∈ parseMetadataFile content,
      cleanKey kv.1 = true ∧ cleanVal kv.2 = true ∧ kv.2 ≠ "" := by
    intro kv hkv
    have h2 := List.all_eq_true.mp hex kv hkv
    simp only [Bool.and_eq_true, bne_iff_ne] at h2
    exact ⟨h2.1.1, h2.1.2, h2.2⟩
  have hupdp : ∀ ku ∈ updates, cleanKey ku.1 = true
      ∧ ∀ v, ku.2 = some v → cleanVal v = true := by
    intro ku hku
    have h2 := List.all_eq_true.mp hupd ku hku
    simp only [Bool.and_eq_true] at h2
    refine ⟨h2.1, ?_⟩
    intro v hv
    have h3 := h2.2
    rw [hv] at h3
    exact h3
  set merged := updates.foldl applyUpdate (parseMetadataFile content) with hmdef
  have hclean : ∀ kv ∈ merged, cleanKey kv.1 = true ∧ cleanVal kv.2 = true :=
    merge_clean updates (parseMetadataFile content)
      (fun kv hkv => ⟨(hexp kv hkv).1, (hexp kv hkv).2.1⟩) hupdp
  have hnd : nodupKeys merged = true :=
    merge_nodup updates (parseMetadataFile content) hexnd
  refine ⟨writeLoc s id (serializeMetadata merged) loc, ?_, ?_⟩
  · simp [updateMetadata, hid, hloc, hcontent]
  · refine ⟨parseMetadataFile (serializeMetadata merged), ?_, ?_, ?_, ?_⟩
    · have hres2 := resolveLoc_writeLoc s id (serializeMetadata merged) loc hloc
      have hread2 := readLoc_writeLoc s id (serializeMetadata merged) loc
        ⟨content, hcontent⟩
      simp [readMetadataRaw, hid, hres2, hread2]
    · intro k v hkv hv
      rw [getKey_roundtrip merged hclean hnd k,
        merge_set updates _ k v hund hkv hv]
      simp [truthy, hv]
    · intro k hkv
      rw [getKey_roundtrip merged hclean hnd k,
        merge_remove updates _ k hund hkv]
      simp [truthy]
    · intro k hknone
      rw [getKey_roundtrip merged hclean hnd k,
        merge_frame updates _ k hknone]
      cases he : getKey (parseMetadataFile content) k with
      | none => simp [truthy]
      | some v =>
        have hv := (hexp (k, v) (getKey_mem _ _ _ he)).2.2
        simp [truthy, hv]

/-- C3 witness: updating a record with fields a and b by removing b and
adding c yields a record with a unchanged, b gone and c present. -/
theorem updateMetadata_merge_witness :
    ∃ s2, updateMetadata ⟨[("abc", "a=1\nb=2\n")], []⟩ "abc"
        [("b", some ""), ("c", some "3")] = some s2
      ∧ ∃ raw, readMetadataRaw s2 "abc" = some (some raw)
        ∧ getKey raw "c" = some "3"
        ∧ getKey raw "b" = none
        ∧ getKey raw "a" = some "1" := by
  obtain ⟨s2, h1, raw, h2, h3, h4, h5⟩ :=
    updateMetadata_merge ⟨[("abc", "a=1\nb=2\n")], []⟩ "abc"
      [("b", some ""), ("c", some "3")] (by decide) .flatLoc (by decide)
      "a=1\nb=2\n" (by decide) (by decide) (by decide) (by decide) (by decide)
  refine ⟨s2, h1, raw, h2, h3 "c" "3" (by decide) (by decide),
    h4 "b" (by decide), ?_⟩
  have h6 := h5 "a" (by intro ov hm; simp at hm)
  rw [h6]
  decide

end AO
